import Mathlib

/-!
Shallow embedding of the ReWildID embedding-cache and clustering core.

The definitions below are translated from the repository's Python sources:
  * `src/python/reid_v2.py` (distance matrix, greedy clusterer, run loop),
  * `src/python/db_utils.py` (SQLite embedding cache),
  * `src/python/config/config.py` (embedding variant names).
Real numbers computed by numpy are modelled as rationals; the value
`+infinity` written into the distance matrix is modelled as `none` in
`Option ℚ` (so a finite entry `x` is `some x`).  The numpy reductions
`np.min` / `np.max` / `np.argmin` are modelled by explicit folds with the
same semantics on nonempty data.
-/

/-- Minimum of a list in a linear order, with default `d` for the empty
list (numpy's `np.min` on a nonempty array; the default is never used on
the paths the code exercises). -/
def listMinD {α : Type} [LinearOrder α] (l : List α) (d : α) : α :=
  match l with
  | [] => d
  | a :: t => t.foldl min a

/-- Maximum of a list in a linear order, with default `d` for the empty
list (numpy's `np.max` on a nonempty array). -/
def listMaxD {α : Type} [LinearOrder α] (l : List α) (d : α) : α :=
  match l with
  | [] => d
  | a :: t => t.foldl max a

/-- Minimum of two extended distances, where `none` stands for `+infinity`. -/
def dmin (x y : Option ℚ) : Option ℚ :=
  match x, y with
  | none, y => y
  | some a, none => some a
  | some a, some b => some (min a b)

/-- Minimum of a distance-matrix row (`np.min(row)`), `none` meaning
`+infinity`; `none` is returned only when every entry is `+infinity`. -/
def rowMin (row : List (Option ℚ)) : Option ℚ :=
  row.foldl dmin none

/-- Index of the first occurrence of the minimum of a list of rationals:
the semantics of `np.argmin` (deterministic first-occurrence tie-break). -/
def argminFirst (l : List ℚ) : ℕ :=
  l.findIdx (fun x => decide (x = listMinD l 0))

/-! ## DistanceEngine (`compute_distance_matrix`, reid_v2.py lines 300-321) -/

/-- Dot product of two vectors (`embeddings @ embeddings.T` entrywise). -/
def dot (a b : List ℚ) : ℚ :=
  (List.zip a b).foldl (fun s p => s + p.1 * p.2) 0

/-- Row `r` of the cosine-similarity matrix `E @ E.T`. -/
def simRow (E : List (List ℚ)) (r : ℕ) : List ℚ :=
  E.map (fun e => dot (E.getD r []) e)

/-- Row `r` of the raw distance matrix `1 - E @ E.T`, before masking. -/
def rawDistRow (E : List (List ℚ)) (r : ℕ) : List ℚ :=
  (simRow E r).map (fun s => 1 - s)

/-- Per-row self-exclusion masking: overwrite the cell at `np.argmin(row)`
(first occurrence of the row minimum) with `+infinity`; the diagonal index
is never special-cased. -/
def maskRow (row : List ℚ) : List (Option ℚ) :=
  (row.map some).set (argminFirst row) none

/-- `compute_distance_matrix`: `D = 1 - E @ E.T`, then for each row set the
minimum-distance entry (first occurrence) to `+infinity`. -/
def compute_distance_matrix (E : List (List ℚ)) : List (List (Option ℚ)) :=
  (List.range E.length).map (fun r => maskRow (rawDistRow E r))

/-! ## IdentityClusterer (`process_dist_mat_v2`, reid_v2.py lines 324-361) -/

/-- The hardcoded tolerance band `0.00065` of `process_dist_mat_v2`. -/
def epsV2 : ℚ := 13 / 20000

/-- Whether entry `x` is within `eps` of the row minimum `m`:
`np.abs(row - min_dist) <= eps`.  Arithmetic involving `+infinity`
(`inf - inf = nan`, `inf - finite = inf`) never satisfies the comparison,
exactly as in numpy. -/
def nearMin (x m : Option ℚ) (eps : ℚ) : Bool :=
  match x, m with
  | some a, some b => decide (|a - b| ≤ eps)
  | _, _ => false

/-- Candidate column indices of a row:
`np.where(np.abs(row - min_dist) <= eps)[0]`. -/
def candidatesOf (eps : ℚ) (row : List (Option ℚ)) : List ℕ :=
  (List.range row.length).filter (fun j => nearMin (row.getD j none) (rowMin row) eps)

/-- Numpy fancy assignment `keys[idxs] = v` on an integer array. -/
def setAll (ks : List ℤ) (idxs : List ℕ) (v : ℤ) : List ℤ :=
  idxs.foldl (fun a j => a.set j v) ks

/-- One iteration of the row loop of `process_dist_mat_v2`, translated
branch by branch from the source (reid_v2.py lines 331-351). -/
def processStep (eps : ℚ) (dist : List (List (Option ℚ))) (keys : List ℤ) (r : ℕ) :
    List ℤ :=
  let row := dist.getD r []
  let cand := candidatesOf eps row
  let candKeys := cand.map (fun j => keys.getD j (-1))
  let counter := listMaxD keys (-1)
  if keys.getD r (-1) ≠ -1 then
    setAll keys cand (keys.getD r (-1))
  else if candKeys.all (fun k => decide (k = -1)) then
    setAll (keys.set r (counter + 1)) cand (counter + 1)
  else
    let m := listMinD (candKeys.filter (fun k => decide (k ≠ -1))) (-1)
    setAll (keys.set r m) (cand.filter (fun j => decide (keys.getD j (-1) ≠ m))) m

/-- The full row loop: keys start at the `-1` sentinel and rows are
processed in increasing index order. -/
def processAll (eps : ℚ) (dist : List (List (Option ℚ))) : List ℤ :=
  (List.range dist.length).foldl (processStep eps dist) (List.replicate dist.length (-1))

/-- Indices holding key value `v`: `np.where(keys == k)[0]`. -/
def indicesOf (keys : List ℤ) (v : ℤ) : List ℕ :=
  (List.range keys.length).filter (fun j => decide (keys.getD j (-1) = v))

/-- The integer interval `[a, b]` as an ascending list (the compaction
loop `for k in range(min_key, max_key + 1)`). -/
def intRange (a b : ℤ) : List ℤ :=
  (List.range (b + 1 - a).toNat).map (fun (i : ℕ) => a + (i : ℤ))

/-- Lookup in the association-list model of the Python output dict
(`aid in output_dict`). -/
def lookupAid (d : List (ℕ × List ℕ)) (a : ℕ) : Option (List ℕ) :=
  (d.find? (fun p => p.1 == a)).map Prod.snd

/-- The compaction fold of `process_dist_mat_v2` (reid_v2.py lines
353-361): iterate candidate key values, and for each value present in
`keys` append the next sequential cluster id with that value's indices. -/
def compactFold (keys : List ℤ) (vs : List ℤ) (st : ℕ × List (ℕ × List ℕ)) :
    ℕ × List (ℕ × List ℕ) :=
  vs.foldl
    (fun st k =>
      if k ∈ keys then
        if (lookupAid st.2 st.1).isNone then
          (st.1 + 1, st.2 ++ [(st.1, indicesOf keys k)])
        else st
      else st)
    st

/-- Cluster-id compaction over the full key range `[min(keys), max(keys)]`. -/
def compactSource (keys : List ℤ) : List (ℕ × List ℕ) :=
  (compactFold keys (intRange (listMinD keys (-1)) (listMaxD keys (-1))) (0, [])).2

/-- `process_dist_mat_v2` in full: the row loop followed by compaction. -/
def process_dist_mat_v2 (dist : List (List (Option ℚ))) : List (ℕ × List ℕ) :=
  compactSource (processAll epsV2 dist)

/-- The ascending list of distinct key values hit by the compaction loop. -/
def presentVals (keys : List ℤ) : List ℤ :=
  (intRange (listMinD keys (-1)) (listMaxD keys (-1))).filter (fun k => decide (k ∈ keys))

/-! Specification-side restatement of one clusterer row step, written
pointwise from the words of the spec (section 4.4): three branches in
priority order, each described by the value every index receives.  It is
compared with the source translation `processStep` in the theorem for C1. -/

/-- Row step as described by the spec: branch 1 propagates `keys[r]` onto
all candidates; branch 2 assigns the fresh id `1 + max(keys)` to `r` and
all candidates; branch 3 assigns the minimum assigned candidate key to `r`
and to every candidate whose key differs from it. -/
def specStep (eps : ℚ) (dist : List (List (Option ℚ))) (keys : List ℤ) (r : ℕ) :
    List ℤ :=
  let row := dist.getD r []
  let cand := candidatesOf eps row
  let kr := keys.getD r (-1)
  (List.range keys.length).map (fun j =>
    if kr ≠ -1 then
      if j ∈ cand then kr else keys.getD j (-1)
    else if cand.all (fun c => decide (keys.getD c (-1) = -1)) then
      if j = r ∨ j ∈ cand then 1 + listMaxD keys (-1) else keys.getD j (-1)
    else
      let m := listMinD ((cand.filter (fun c => decide (keys.getD c (-1) ≠ -1))).map
        (fun c => keys.getD c (-1))) (-1)
      if j = r then m
      else if j ∈ cand ∧ keys.getD j (-1) ≠ m then m
      else keys.getD j (-1))

/-- The spec-side row loop, in increasing row order from the all`-1` state. -/
def specProcess (eps : ℚ) (dist : List (List (Option ℚ))) : List ℤ :=
  (List.range dist.length).foldl (specStep eps dist) (List.replicate dist.length (-1))

/-! ## EmbeddingCache (`db_utils.py`) -/

/-- Python `int()` truncation toward zero, applied to each bbox coordinate. -/
def intTrunc (q : ℚ) : ℤ :=
  if 0 ≤ q then ⌊q⌋ else ⌈q⌉

/-- `EmbeddingCache.bbox_to_hash`: the string `"{x1}_{y1}_{x2}_{y2}"` with
each coordinate truncated to integer before formatting. -/
def bbox_to_hash (bbox : List ℚ) : String :=
  toString (intTrunc (bbox.getD 0 0)) ++ "_" ++ toString (intTrunc (bbox.getD 1 0)) ++
    "_" ++ toString (intTrunc (bbox.getD 2 0)) ++ "_" ++ toString (intTrunc (bbox.getD 3 0))

/-- One row of the `embeddings` table.  The float32 blob round-trips
through `tobytes` / `frombuffer` as the float32 vector itself, so the
stored blob is modelled as the (already float32-cast) vector. -/
structure EmbRecord where
  image_id : ℤ
  bbox_hash : String
  embedding_type : String
  embedding : List ℚ
  created_at : ℤ
  deriving DecidableEq

/-- The `embeddings` table, in rowid (insertion) order. -/
abbrev EmbStore := List EmbRecord

/-- The uniqueness-index key comparison `(image_id, bbox_hash, embedding_type)`. -/
def keyMatch (rc : EmbRecord) (iid : ℤ) (h t : String) : Bool :=
  rc.image_id == iid && rc.bbox_hash == h && rc.embedding_type == t

/-- `EmbeddingCache.get_embedding`: SELECT by the unique key, first row. -/
def get_embedding (s : EmbStore) (iid : ℤ) (bbox : List ℚ) (t : String) :
    Option (List ℚ) :=
  (s.find? (fun rc => keyMatch rc iid (bbox_to_hash bbox) t)).map EmbRecord.embedding

/-- SQLite `INSERT OR REPLACE` under the unique index on
`(image_id, bbox_hash, embedding_type)`: delete every conflicting row,
then insert the new one. -/
def insertOrReplace (s : EmbStore) (iid : ℤ) (h t : String) (v : List ℚ) (now : ℤ) :
    EmbStore :=
  s.filter (fun rc => ! keyMatch rc iid h t) ++ [⟨iid, h, t, v, now⟩]

/-- `EmbeddingCache.store_embedding`: cast the vector to float32
(modelled by the elementwise map `f32`, numpy's `astype(np.float32)`),
then `INSERT OR REPLACE` under the bbox-hash key. -/
def store_embedding (s : EmbStore) (iid : ℤ) (bbox : List ℚ) (t : String)
    (v : List ℚ) (f32 : ℚ → ℚ) (now : ℤ) : EmbStore :=
  insertOrReplace s iid (bbox_to_hash bbox) t (v.map f32) now

/-- Number of records in the store with the given unique key. -/
def countKey (s : EmbStore) (iid : ℤ) (h t : String) : ℕ :=
  (s.filter (fun rc => keyMatch rc iid h t)).length

/-! Transactional connection model for `store_embeddings_batch`
(db_utils.py lines 169-200).  Python's `sqlite3.connect` opens a
connection whose DML statements run inside one implicit transaction;
`commit` publishes the pending state, and closing a connection with an
open uncommitted transaction (the `finally: conn.close()` after an
exception) discards the pending changes — SQLite rolls the open
transaction back. -/

/-- A connection: the durable database plus the pending transaction state. -/
structure SqlConn where
  durable : EmbStore
  pending : EmbStore
  deriving DecidableEq

/-- Open a connection on the durable store. -/
def sqlConnect (db : EmbStore) : SqlConn := ⟨db, db⟩

/-- `conn.commit()`: publish pending changes durably. -/
def sqlCommit (c : SqlConn) : SqlConn := ⟨c.pending, c.pending⟩

/-- `conn.close()`: an uncommitted transaction is discarded; only the
durable state survives. -/
def sqlClose (c : SqlConn) : EmbStore := c.durable

/-- One loop iteration of `store_embeddings_batch`: `INSERT OR REPLACE`
of one `(image_id, bbox, embedding)` item inside the open transaction. -/
def batchExec (t : String) (f32 : ℚ → ℚ) (now : ℤ) (c : SqlConn)
    (it : ℤ × List ℚ × List ℚ) : SqlConn :=
  { c with pending := insertOrReplace c.pending it.1 (bbox_to_hash it.2.1) t (it.2.2.map f32) now }

/-- `EmbeddingCache.store_embeddings_batch` run to completion: every
insert executes in one transaction, then a single `commit`, then `close`. -/
def store_embeddings_batch (db : EmbStore) (items : List (ℤ × List ℚ × List ℚ))
    (t : String) (f32 : ℚ → ℚ) (now : ℤ) : EmbStore :=
  sqlClose (sqlCommit (items.foldl (batchExec t f32 now) (sqlConnect db)))

/-- `store_embeddings_batch` failing just before its `k`-th insert (or, at
`k = items.length`, before the final `commit`): the raised exception skips
`commit`, and the `finally` close discards the open transaction. -/
def batchAbortedAt (db : EmbStore) (items : List (ℤ × List ℚ × List ℚ))
    (t : String) (f32 : ℚ → ℚ) (now : ℤ) (k : ℕ) : EmbStore :=
  sqlClose ((items.take k).foldl (batchExec t f32 now) (sqlConnect db))

/-! ## CacheDispatcher (`run`, reid_v2.py lines 475-513; config.py) -/

/-- `RAW_FOR_ADAPTER_TYPE` from `config/config.py`: the intermediate
variant name the dispatcher queries for the adapter-only tier. -/
def RAW_FOR_ADAPTER_TYPE : String := "dinov3_raw_disabled"

/-- The final reid variant name `f'{REID_EMBEDDING_PREFIX}{species}'`. -/
def reidTypeOf (species : String) : String := "dinov3_reid_" ++ species

/-- One input detection of the reid_v2 job: its id, the optional
`image_id` field, the bbox, and the (opaque) image crop. -/
structure DetIn (Img : Type) where
  detection_id : ℤ
  image_id : Option ℤ
  bbox : List ℚ
  crop : Img

/-- The three dispatch tiers of the cache-aware reid pipeline. -/
inductive Tier where
  | fullyCached
  | adapterOnly
  | fullCompute
  deriving DecidableEq

/-- Tier classification of one detection, translated from the
categorization loop (reid_v2.py lines 492-513): final-variant cache hit
first, then intermediate-variant hit, else full computation; detections
without a cache or without an `image_id` go to the full tier. -/
def tierOf {Img : Type} (cacheOpt : Option EmbStore) (species : String)
    (det : DetIn Img) : Tier :=
  match cacheOpt, det.image_id with
  | some store, some iid =>
    match get_embedding store iid det.bbox (reidTypeOf species) with
    | some _ => Tier.fullyCached
    | none =>
      match get_embedding store iid det.bbox RAW_FOR_ADAPTER_TYPE with
      | some _ => Tier.adapterOnly
      | none => Tier.fullCompute
  | _, _ => Tier.fullCompute

/-- The embedding produced for one detection together with which model
stages ran, as a pair of flags `(ran backbone, ran adapter)`: a fully
cached detection uses the stored vector with no model invocation; an
adapter-only detection applies `forward_from_raw` (the adapter stage) to
the cached intermediate vector without the backbone; otherwise the full
pipeline (backbone then adapter) runs on the image crop. -/
def dispatchEmbedding {Img : Type} (cacheOpt : Option EmbStore) (species : String)
    (adapt : List ℚ → List ℚ) (backbone : Img → List ℚ) (det : DetIn Img) :
    List ℚ × Bool × Bool :=
  match cacheOpt, det.image_id with
  | some store, some iid =>
    match get_embedding store iid det.bbox (reidTypeOf species) with
    | some e => (e, false, false)
    | none =>
      match get_embedding store iid det.bbox RAW_FOR_ADAPTER_TYPE with
      | some w => (adapt w, false, true)
      | none => (adapt (backbone det.crop), true, true)
  | _, _ => (adapt (backbone det.crop), true, true)

/-! ## Result bookkeeping of `run` (reid_v2.py lines 377-656) -/

/-- A detection as seen by the run loop's bookkeeping: its id and the
outcome of producing its embedding (`none` models a load/crop failure in
the full-model path; cached and adapter-path detections always succeed). -/
structure DetR where
  detection_id : ℤ
  outcome : Option (List ℚ)
  deriving DecidableEq

/-- Python `lst[lst.index(x)] = None` on the identifier list: replace the
first unmarked occurrence of value `x` by `None`.  (The `index` call never
misses on the states `run` produces; on a miss the list is returned
unchanged.) -/
def replaceFirstNone : List (Option ℤ) → ℤ → List (Option ℤ)
  | [], _ => []
  | some y :: tl, x =>
    if y = x then none :: tl else some y :: replaceFirstNone tl x
  | none :: tl, x => none :: replaceFirstNone tl x

/-- One detection's effect on the identifier list: a load failure marks
the first occurrence of the failed detection's id (reid_v2.py line 582). -/
def markStep (st : List (Option ℤ)) (d : DetR) : List (Option ℤ) :=
  match d.outcome with
  | some _ => st
  | none => replaceFirstNone st d.detection_id

/-- The identifier list after all failures are marked: start from all
detection ids, then process detections in order. -/
def markFailures (dets : List DetR) : List (Option ℤ) :=
  dets.foldl markStep (dets.map (fun d => some d.detection_id))

/-- `detection_ids = [d for d in detection_ids if d is not None]`. -/
def survivingIds (dets : List DetR) : List ℤ :=
  (markFailures dets).filterMap id

/-- One iteration of the combine loop (reid_v2.py lines 611-631): a
detection whose id value is absent from the surviving list is skipped;
otherwise its embedding, when one was produced, is appended. -/
def combineStep (ids : List ℤ) (acc : List (List ℚ)) (d : DetR) : List (List ℚ) :=
  if d.detection_id ∈ ids then
    match d.outcome with
    | some e => acc ++ [e]
    | none => acc
  else acc

/-- The embedding list the clusterer receives, in original order. -/
def combinedEmbs (dets : List DetR) : List (List ℚ) :=
  dets.foldl (combineStep (survivingIds dets)) []

/-- One output individual `{"name": "ID-<n>", "detection_ids": [...]}`. -/
structure Individual where
  name : String
  detection_ids : List ℤ
  deriving DecidableEq

/-- The job output document `{"individuals": [...]}`. -/
structure JobOutput where
  individuals : List Individual
  deriving DecidableEq

/-- `format_output_with_detection_ids` (reid_v2.py lines 364-374). -/
def format_output_with_detection_ids (ids : List ℤ) (cluster_dict : List (ℕ × List ℕ)) :
    JobOutput :=
  ⟨cluster_dict.map (fun p => ⟨"ID-" ++ toString p.1, p.2.map (fun i => ids.getD i 0)⟩)⟩

/-- The output-producing skeleton of `run`: the empty-input and
single-input shortcuts, the zero-surviving-embeddings shortcut, and the
main distance/clustering path.  The boolean records whether the
distance-matrix/clustering code path was invoked. -/
def runJob (dets : List DetR) : JobOutput × Bool :=
  if dets.length = 0 then (⟨[]⟩, false)
  else if dets.length = 1 then
    (⟨[⟨"ID-0", [(dets.headD ⟨0, none⟩).detection_id]⟩]⟩, false)
  else
    let ids := survivingIds dets
    let embs := combinedEmbs dets
    if embs.length = 0 then (⟨[]⟩, false)
    else (format_output_with_detection_ids ids (process_dist_mat_v2 (compute_distance_matrix embs)), true)

/-! ## Generic list lemmas used throughout -/

theorem getD_set_split {α : Type} (l : List α) (i j : ℕ) (v d : α) :
    (l.set i v).getD j d = if i = j ∧ j < l.length then v else l.getD j d := by
  rw [List.getD_eq_getElem?_getD, List.getD_eq_getElem?_getD, List.getElem?_set]
  by_cases hij : i = j
  · subst hij
    by_cases hlt : i < l.length
    · simp [hlt]
    · simp only [hlt, if_false, if_true, and_false, false_and, and_true, true_and]
      rw [List.getElem?_eq_none (by omega)]
  · simp [hij]

theorem setAll_cons (ks : List ℤ) (i : ℕ) (t : List ℕ) (v : ℤ) :
    setAll ks (i :: t) v = setAll (ks.set i v) t v := rfl

theorem length_setAll (ks : List ℤ) (idxs : List ℕ) (v : ℤ) :
    (setAll ks idxs v).length = ks.length := by
  induction idxs generalizing ks with
  | nil => rfl
  | cons i t ih => rw [setAll_cons, ih, List.length_set]

theorem getD_setAll (ks : List ℤ) (idxs : List ℕ) (v : ℤ) (j : ℕ) (d : ℤ) :
    (setAll ks idxs v).getD j d = if j ∈ idxs ∧ j < ks.length then v else ks.getD j d := by
  induction idxs generalizing ks with
  | nil => simp [setAll]
  | cons i t ih =>
    rw [setAll_cons, ih, List.length_set, getD_set_split]
    by_cases hjt : j ∈ t
    · by_cases hlen : j < ks.length
      · simp [hjt, hlen, List.mem_cons]
      · simp [hjt, hlen]
    · by_cases hij : i = j
      · subst hij
        by_cases hlen : i < ks.length <;> simp [hjt, hlen, List.mem_cons]
      · simp [hjt, hij, Ne.symm hij, List.mem_cons]

theorem mem_setAll {x : ℤ} {ks : List ℤ} {idxs : List ℕ} {v : ℤ} :
    x ∈ setAll ks idxs v → x ∈ ks ∨ x = v := by
  induction idxs generalizing ks with
  | nil => exact fun h => Or.inl h
  | cons i t ih =>
    intro h
    rcases ih (show x ∈ setAll (ks.set i v) t v by
        simpa [setAll_cons] using h) with h' | h'
    · rcases List.mem_or_eq_of_mem_set h' with h'' | h''
      · exact Or.inl h''
      · exact Or.inr h''
    · exact Or.inr h'

theorem all_map_pred {α β : Type} (l : List α) (f : α → β) (p : β → Bool) :
    (l.map f).all p = l.all (fun a => p (f a)) := by
  induction l with
  | nil => rfl
  | cons a t ih => simp [ih]

theorem getD_map_range {α : Type} (n j : ℕ) (f : ℕ → α) (d : α) (hj : j < n) :
    ((List.range n).map f).getD j d = f j := by
  rw [List.getD_eq_getElem ((List.range n).map f) d
      (by simpa using hj), List.getElem_map, List.getElem_range]
theorem processStep_eq_specStep (eps : ℚ) (dist : List (List (Option ℚ)))
    (keys : List ℤ) (r : ℕ) :
    processStep eps dist keys r = specStep eps dist keys r := by
  unfold processStep specStep
  set row := dist.getD r [] with hrow
  set cand := candidatesOf eps row with hcand
  by_cases h1 : keys.getD r (-1) ≠ -1
  · simp only [h1, if_true, ne_eq, not_false_eq_true, if_pos]
    apply List.ext_getElem
    · simp [length_setAll]
    intro j hj1 hj2
    have hjlen : j < keys.length := by simpa [length_setAll] using hj1
    rw [← List.getD_eq_getElem _ (-1) hj1, ← List.getD_eq_getElem _ (-1) hj2,
      getD_setAll, getD_map_range _ _ _ _ (by simpa using hj2)]
    by_cases hjc : j ∈ cand <;> simp [hjc, hjlen]
  · push_neg at h1
    simp only [h1, ne_eq, not_true_eq_false, if_false, ite_not]
    have hall : (cand.map (fun j => keys.getD j (-1))).all (fun k => decide (k = -1)) =
        cand.all (fun c => decide (keys.getD c (-1) = -1)) := by
      rw [all_map_pred]
    rw [hall]
    by_cases h2 : cand.all (fun c => decide (keys.getD c (-1) = -1))
    · simp only [h2, if_true]
      apply List.ext_getElem
      · simp [length_setAll]
      intro j hj1 hj2
      have hjlen : j < keys.length := by
        simpa [length_setAll, List.length_set] using hj1
      rw [← List.getD_eq_getElem _ (-1) hj1, ← List.getD_eq_getElem _ (-1) hj2,
        getD_setAll, getD_map_range _ _ _ _ (by simpa using hj2),
        List.length_set, getD_set_split]
      by_cases hjc : j ∈ cand
      · simp [hjc, hjlen, add_comm]
      · by_cases hjr : j = r
        · subst hjr
          simp [hjc, hjlen, add_comm]
        · simp [hjc, hjr, Ne.symm hjr]
    · rw [Bool.not_eq_true] at h2
      simp only [h2, Bool.false_eq_true, if_false]
      have hm : ((cand.map (fun j => keys.getD j (-1))).filter (fun k => decide (k ≠ -1))) =
          ((cand.filter (fun c => decide (keys.getD c (-1) ≠ -1))).map
            (fun c => keys.getD c (-1))) := by
        rw [List.filter_map]
        rfl
      rw [hm]
      set m := listMinD ((cand.filter (fun c => decide (keys.getD c (-1) ≠ -1))).map
        (fun c => keys.getD c (-1))) (-1) with hmdef
      apply List.ext_getElem
      · simp [length_setAll]
      intro j hj1 hj2
      have hjlen : j < keys.length := by
        simpa [length_setAll, List.length_set] using hj1
      rw [← List.getD_eq_getElem _ (-1) hj1, ← List.getD_eq_getElem _ (-1) hj2,
        getD_setAll, getD_map_range _ _ _ _ (by simpa using hj2),
        List.length_set, getD_set_split]
      by_cases hjr : j = r
      · subst hjr
        by_cases hjc : j ∈ cand.filter (fun c => decide (keys.getD c (-1) ≠ -1)) <;>
          simp [hjc, hjlen]
      · by_cases hjc : j ∈ cand
        · by_cases hne : keys.getD j (-1) = m
          · have hne' : keys[j]?.getD (-1) = m := by
              rw [← List.getD_eq_getElem?_getD]; exact hne
            have hsel : j ∉ cand.filter (fun c => decide (keys.getD c (-1) ≠ m)) := by
              simp [List.mem_filter, hne']
            simp [hsel, hjr, Ne.symm hjr, hjc, hne, hne']
          · have hne' : ¬ keys[j]?.getD (-1) = m := by
              rw [← List.getD_eq_getElem?_getD]; exact hne
            have hsel : j ∈ cand.filter (fun c => decide (keys.getD c (-1) ≠ m)) := by
              simp [List.mem_filter, hne', hjc]
            simp only [hsel, hjr, hjlen, hjc, hne, hne', if_true, if_pos,
              List.getD_eq_getElem?_getD, getD_setAll, List.length_set]
            simp [hjlen, hjc, hne']
            exact fun h _ => h
        · have hsel : j ∉ cand.filter (fun c => decide (keys.getD c (-1) ≠ m)) := by
            simp [List.mem_filter, hjc]
          simp [hsel, hjr, Ne.symm hjr, hjc]

theorem processAll_eq_specProcess (eps : ℚ) (dist : List (List (Option ℚ))) :
    processAll eps dist = specProcess eps dist := by
  unfold processAll specProcess
  have h : processStep eps dist = specStep eps dist := by
    funext keys r
    exact processStep_eq_specStep eps dist keys r
  rw [h]

/-- C1. The greedy clusterer's row loop, translated from the source
(`process_dist_mat_v2`, reid_v2.py lines 324-351), coincides with the
spec-side pointwise description: rows are folded in increasing index
order, the candidates of a row are all columns within `eps` of the row
minimum, and each row applies exactly the three-branch priority —
propagate an already-assigned `keys[r]` onto all candidates
(last-write-wins); else, when every candidate is unassigned, assign the
fresh id `1 + max(keys)` to `r` and all candidates; else assign the
minimum assigned candidate key to `r` and to every candidate whose
current key differs from it. -/
theorem C1_greedy_cluster_step :
    (∀ (eps : ℚ) (dist : List (List (Option ℚ))) (keys : List ℤ) (r : ℕ),
      processStep eps dist keys r = specStep eps dist keys r) ∧
    (∀ (eps : ℚ) (dist : List (List (Option ℚ))),
      processAll eps dist = specProcess eps dist) :=
  ⟨processStep_eq_specStep, processAll_eq_specProcess⟩

/-! ## Minimum / maximum fold lemmas -/

theorem foldl_min_mem {α : Type} [LinearOrder α] (t : List α) (a : α) :
    t.foldl min a ∈ a :: t := by
  induction t generalizing a with
  | nil => simp
  | cons b t ih =>
    rcases List.mem_cons.mp (ih (min a b)) with h | h
    · rcases min_choice a b with hc | hc
      · rw [List.foldl_cons, h, hc]; simp
      · rw [List.foldl_cons, h, hc]; simp
    · simp [List.foldl_cons, List.mem_cons, h]

theorem foldl_min_le_init {α : Type} [LinearOrder α] (t : List α) (a : α) :
    t.foldl min a ≤ a := by
  induction t generalizing a with
  | nil => simp
  | cons b t ih =>
    calc (b :: t).foldl min a = t.foldl min (min a b) := rfl
    _ ≤ min a b := ih (min a b)
    _ ≤ a := min_le_left a b

theorem foldl_min_le {α : Type} [LinearOrder α] (t : List α) (a x : α)
    (hx : x ∈ a :: t) : t.foldl min a ≤ x := by
  induction t generalizing a with
  | nil => simp at hx; simp [hx]
  | cons b t ih =>
    rcases List.mem_cons.mp hx with h | h
    · subst h
      calc (b :: t).foldl min x = t.foldl min (min x b) := rfl
      _ ≤ min x b := foldl_min_le_init t (min x b)
      _ ≤ x := min_le_left x b
    · rcases List.mem_cons.mp h with h' | h'
      · subst h'
        calc (x :: t).foldl min a = t.foldl min (min a x) := rfl
        _ ≤ min a x := foldl_min_le_init t (min a x)
        _ ≤ x := min_le_right a x
      · exact ih (min a b) (List.mem_cons_of_mem _ h')

theorem listMinD_mem {α : Type} [LinearOrder α] {l : List α} (d : α) (h : l ≠ []) :
    listMinD l d ∈ l := by
  cases l with
  | nil => exact absurd rfl h
  | cons a t => exact foldl_min_mem t a

theorem listMinD_le {α : Type} [LinearOrder α] {l : List α} (d : α) {x : α}
    (hx : x ∈ l) : listMinD l d ≤ x := by
  cases l with
  | nil => cases hx
  | cons a t => exact foldl_min_le t a x hx

theorem foldl_max_mem {α : Type} [LinearOrder α] (t : List α) (a : α) :
    t.foldl max a ∈ a :: t := by
  induction t generalizing a with
  | nil => simp
  | cons b t ih =>
    rcases List.mem_cons.mp (ih (max a b)) with h | h
    · rcases max_choice a b with hc | hc
      · rw [List.foldl_cons, h, hc]; simp
      · rw [List.foldl_cons, h, hc]; simp
    · simp [List.foldl_cons, List.mem_cons, h]

theorem foldl_max_ge_init {α : Type} [LinearOrder α] (t : List α) (a : α) :
    a ≤ t.foldl max a := by
  induction t generalizing a with
  | nil => simp
  | cons b t ih =>
    calc a ≤ max a b := le_max_left a b
    _ ≤ t.foldl max (max a b) := ih (max a b)
    _ = (b :: t).foldl max a := rfl

theorem foldl_max_ge {α : Type} [LinearOrder α] (t : List α) (a x : α)
    (hx : x ∈ a :: t) : x ≤ t.foldl max a := by
  induction t generalizing a with
  | nil => simp at hx; simp [hx]
  | cons b t ih =>
    rcases List.mem_cons.mp hx with h | h
    · subst h
      calc x ≤ max x b := le_max_left x b
      _ ≤ t.foldl max (max x b) := foldl_max_ge_init t (max x b)
      _ = (b :: t).foldl max x := rfl
    · rcases List.mem_cons.mp h with h' | h'
      · subst h'
        calc x ≤ max a x := le_max_right a x
        _ ≤ t.foldl max (max a x) := foldl_max_ge_init t (max a x)
        _ = (x :: t).foldl max a := rfl
      · exact ih (max a b) (List.mem_cons_of_mem _ h')

theorem listMaxD_mem {α : Type} [LinearOrder α] {l : List α} (d : α) (h : l ≠ []) :
    listMaxD l d ∈ l := by
  cases l with
  | nil => exact absurd rfl h
  | cons a t => exact foldl_max_mem t a

theorem le_listMaxD {α : Type} [LinearOrder α] {l : List α} (d : α) {x : α}
    (hx : x ∈ l) : x ≤ listMaxD l d := by
  cases l with
  | nil => cases hx
  | cons a t => exact foldl_max_ge t a x hx

/-! ## Lemmas about `argminFirst` and `maskRow` (claim C2) -/

theorem argminFirst_lt_length {l : List ℚ} (h : l ≠ []) : argminFirst l < l.length := by
  apply List.findIdx_lt_length_of_exists
  exact ⟨listMinD l 0, listMinD_mem 0 h, by simp⟩

theorem argminFirst_val {l : List ℚ} (h : l ≠ []) :
    l.getD (argminFirst l) 0 = listMinD l 0 := by
  have hlt := argminFirst_lt_length h
  rw [List.getD_eq_getElem _ _ hlt]
  have hlt' : List.findIdx (fun x => decide (x = listMinD l 0)) l < l.length := hlt
  have := @List.findIdx_getElem _ (fun x => decide (x = listMinD l 0)) l hlt'
  simpa using this

theorem argminFirst_first {l : List ℚ} {j : ℕ} (hj : j < argminFirst l)
    (hlen : j < l.length) : listMinD l 0 < l.getD j 0 := by
  have hj' : j < List.findIdx (fun x => decide (x = listMinD l 0)) l := hj
  have hne := List.not_of_lt_findIdx hj'
  rw [List.getD_eq_getElem _ _ hlen]
  rcases lt_or_eq_of_le (listMinD_le 0 (List.getElem_mem hlen)) with h | h
  · exact h
  · exfalso
    simp only [decide_eq_false_iff_not] at hne
    exact hne h.symm

/-- The constructed example of claim C2: embeddings 0 and 1 identical unit
vectors, embedding 2 distinct. -/
def Eex : List (List ℚ) := [[1, 0], [1, 0], [0, 1]]

/-- C2. `compute_distance_matrix` returns `1 - E @ E.T` with, per row,
exactly one cell overwritten to `+infinity`: the cell holding the row's
minimum at its first-occurring index (`np.argmin` tie-break); the diagonal
is never special-cased.  On the concrete example with rows 0 and 1
bit-identical, row 0's mask lands on index 0 only (cell (0,1), also of
distance 0, stays unmasked), and row 1's mask also lands on index 0 — not
on its diagonal. -/
theorem C2_distance_matrix_masking :
    (∀ (E : List (List ℚ)) (r : ℕ), r < E.length → rawDistRow E r ≠ [] →
      argminFirst (rawDistRow E r) < (rawDistRow E r).length ∧
      (compute_distance_matrix E).getD r [] =
        ((rawDistRow E r).map some).set (argminFirst (rawDistRow E r)) none ∧
      (rawDistRow E r).getD (argminFirst (rawDistRow E r)) 0 = listMinD (rawDistRow E r) 0 ∧
      (∀ j, j < argminFirst (rawDistRow E r) →
        listMinD (rawDistRow E r) 0 < (rawDistRow E r).getD j 0) ∧
      (∀ j, j < (rawDistRow E r).length → j ≠ argminFirst (rawDistRow E r) →
        ((compute_distance_matrix E).getD r []).getD j none = some ((rawDistRow E r).getD j 0)) ∧
      ((compute_distance_matrix E).getD r []).getD (argminFirst (rawDistRow E r)) (some 0) = none) ∧
    compute_distance_matrix Eex =
      [[none, some 0, some 1], [none, some 0, some 1], [some 1, some 1, none]] := by
  constructor
  · intro E r hr hne
    have hrow : (compute_distance_matrix E).getD r [] = maskRow (rawDistRow E r) := by
      unfold compute_distance_matrix
      rw [getD_map_range _ _ _ _ hr]
    have hlt := argminFirst_lt_length hne
    refine ⟨hlt, by rw [hrow]; rfl, argminFirst_val hne, ?_, ?_, ?_⟩
    · intro j hj
      exact argminFirst_first hj (lt_trans hj hlt)
    · intro j hjlen hjne
      rw [hrow]
      unfold maskRow
      rw [getD_set_split]
      simp only [hjne, Ne.symm hjne, false_and, if_false]
      rw [List.getD_eq_getElem _ _ (by simpa using hjlen), List.getElem_map,
        List.getD_eq_getElem _ _ hjlen]
    · rw [hrow]
      unfold maskRow
      rw [getD_set_split]
      simp [hlt]
  · norm_num [compute_distance_matrix, Eex, rawDistRow, simRow, dot, maskRow, argminFirst,
      listMinD, List.findIdx_cons, List.range_succ]

/-! ## Invariants of the row loop (claim C4) -/

theorem length_processStep (eps : ℚ) (dist : List (List (Option ℚ)))
    (keys : List ℤ) (r : ℕ) :
    (processStep eps dist keys r).length = keys.length := by
  unfold processStep
  split
  · rw [length_setAll]
  · dsimp only
    split
    · rw [length_setAll, List.length_set]
    · rw [length_setAll, List.length_set]

theorem length_foldl_processStep (eps : ℚ) (dist : List (List (Option ℚ)))
    (rows : List ℕ) (ks : List ℤ) :
    (rows.foldl (processStep eps dist) ks).length = ks.length := by
  induction rows generalizing ks with
  | nil => rfl
  | cons r t ih => rw [List.foldl_cons, ih, length_processStep]

theorem length_processAll (eps : ℚ) (dist : List (List (Option ℚ))) :
    (processAll eps dist).length = dist.length := by
  unfold processAll
  rw [length_foldl_processStep, List.length_replicate]

theorem getD_mem_or (ks : List ℤ) (j : ℕ) :
    ks.getD j (-1) = -1 ∨ ks.getD j (-1) ∈ ks := by
  by_cases h : j < ks.length
  · exact Or.inr (by rw [List.getD_eq_getElem _ _ h]; exact List.getElem_mem h)
  · left
    rw [List.getD_eq_getElem?_getD, List.getElem?_eq_none (by omega)]
    rfl

/-- Every value the row step writes is at least `-1`, so the key array
never leaves the sentinel range. -/
theorem processStep_ge_neg_one (eps : ℚ) (dist : List (List (Option ℚ)))
    (keys : List ℤ) (r : ℕ) (hks : ∀ x ∈ keys, -1 ≤ x) :
    ∀ x ∈ processStep eps dist keys r, -1 ≤ x := by
  have hkr : -1 ≤ keys.getD r (-1) := by
    rcases getD_mem_or keys r with h | h
    · omega
    · exact hks _ h
  have hcounter : -1 ≤ listMaxD keys (-1) := by
    rcases eq_or_ne keys [] with hk | hk
    · rw [hk]; simp [listMaxD]
    · exact hks _ (listMaxD_mem (-1) hk)
  have hmin : ∀ (cand : List ℕ),
      -1 ≤ listMinD ((cand.map (fun j => keys.getD j (-1))).filter
        (fun k => decide (k ≠ -1))) (-1) := by
    intro cand
    rcases eq_or_ne ((cand.map (fun j => keys.getD j (-1))).filter
        (fun k => decide (k ≠ -1))) [] with hf | hf
    · rw [hf]; simp [listMinD]
    · have hmem := listMinD_mem (-1) hf
      have hmem2 := (List.mem_filter.mp hmem).1
      rcases List.mem_map.mp hmem2 with ⟨c, _, hc⟩
      rcases getD_mem_or keys c with h | h
      · rw [← hc]; omega
      · rw [← hc]; exact hks _ h
  intro x hx
  unfold processStep at hx
  split at hx
  · rcases mem_setAll hx with h | h
    · exact hks _ h
    · rw [h]; exact hkr
  · dsimp only at hx
    split at hx
    · rcases mem_setAll hx with h | h
      · rcases List.mem_or_eq_of_mem_set h with h' | h'
        · exact hks _ h'
        · rw [h']; omega
      · rw [h]; omega
    · rcases mem_setAll hx with h | h
      · rcases List.mem_or_eq_of_mem_set h with h' | h'
        · exact hks _ h'
        · rw [h']; exact hmin _
      · rw [h]; exact hmin _

theorem minPosKey_nonneg (keys : List ℤ) (cand : List ℕ)
    (hks : ∀ x ∈ keys, -1 ≤ x)
    (hne : ¬ ((cand.map (fun j => keys.getD j (-1))).all (fun k => decide (k = -1)) = true)) :
    0 ≤ listMinD ((cand.map (fun j => keys.getD j (-1))).filter
      (fun k => decide (k ≠ -1))) (-1) := by
  rw [List.all_eq_true] at hne
  push_neg at hne
  rcases hne with ⟨x, hxmem, hxne⟩
  have hxne' : x ≠ -1 := by simpa using hxne
  have hxf : x ∈ (cand.map (fun j => keys.getD j (-1))).filter (fun k => decide (k ≠ -1)) :=
    List.mem_filter.mpr ⟨hxmem, by simpa using hxne'⟩
  have hfne : (cand.map (fun j => keys.getD j (-1))).filter (fun k => decide (k ≠ -1)) ≠ [] :=
    List.ne_nil_of_mem hxf
  have hmem := listMinD_mem (-1) hfne
  have hval_ne : listMinD ((cand.map (fun j => keys.getD j (-1))).filter
      (fun k => decide (k ≠ -1))) (-1) ≠ -1 := by
    have := (List.mem_filter.mp hmem).2
    simpa using this
  have hval_ge : -1 ≤ listMinD ((cand.map (fun j => keys.getD j (-1))).filter
      (fun k => decide (k ≠ -1))) (-1) := by
    have hmem2 := (List.mem_filter.mp hmem).1
    rcases List.mem_map.mp hmem2 with ⟨c, _, hc⟩
    rcases getD_mem_or keys c with h | h
    · rw [← hc]; omega
    · rw [← hc]; exact hks _ h
  omega

theorem counter_succ_nonneg (keys : List ℤ) (hks : ∀ x ∈ keys, -1 ≤ x) :
    0 ≤ listMaxD keys (-1) + 1 := by
  rcases eq_or_ne keys [] with hk | hk
  · rw [hk]; simp [listMaxD]
  · have := hks _ (listMaxD_mem (-1) hk)
    omega

theorem processStep_getD_nonneg_preserved (eps : ℚ) (dist : List (List (Option ℚ)))
    (keys : List ℤ) (r j : ℕ) (hks : ∀ x ∈ keys, -1 ≤ x)
    (hj : 0 ≤ keys.getD j (-1)) :
    0 ≤ (processStep eps dist keys r).getD j (-1) := by
  have hkr : -1 ≤ keys.getD r (-1) := by
    rcases getD_mem_or keys r with h | h
    · omega
    · exact hks _ h
  unfold processStep
  split
  · rename_i h1
    rw [getD_setAll]
    split
    · omega
    · exact hj
  · dsimp only
    split
    · rw [getD_setAll, List.length_set]
      have := counter_succ_nonneg keys hks
      split
      · omega
      · rw [getD_set_split]
        split
        · omega
        · exact hj
    · rename_i h2
      have hm := minPosKey_nonneg keys (candidatesOf eps (dist.getD r [])) hks h2
      rw [getD_setAll, List.length_set]
      split
      · exact hm
      · rw [getD_set_split]
        split
        · exact hm
        · exact hj

theorem processStep_getD_r_nonneg (eps : ℚ) (dist : List (List (Option ℚ)))
    (keys : List ℤ) (r : ℕ) (hks : ∀ x ∈ keys, -1 ≤ x) (hr : r < keys.length) :
    0 ≤ (processStep eps dist keys r).getD r (-1) := by
  have hkr : -1 ≤ keys.getD r (-1) := by
    rcases getD_mem_or keys r with h | h
    · omega
    · exact hks _ h
  unfold processStep
  split
  · rename_i h1
    rw [getD_setAll]
    split
    · omega
    · omega
  · dsimp only
    split
    · rw [getD_setAll, List.length_set]
      have := counter_succ_nonneg keys hks
      split
      · omega
      · rw [getD_set_split, if_pos ⟨rfl, hr⟩]
        omega
    · rename_i h2
      have hm := minPosKey_nonneg keys (candidatesOf eps (dist.getD r [])) hks h2
      rw [getD_setAll, List.length_set]
      split
      · exact hm
      · rw [getD_set_split, if_pos ⟨rfl, hr⟩]
        exact hm

theorem foldRows_inv (eps : ℚ) (dist : List (List (Option ℚ))) :
    ∀ m, m ≤ dist.length →
      (∀ x ∈ (List.range m).foldl (processStep eps dist)
          (List.replicate dist.length (-1)), -1 ≤ x) ∧
      (∀ j, j < m → 0 ≤ ((List.range m).foldl (processStep eps dist)
          (List.replicate dist.length (-1))).getD j (-1)) := by
  intro m
  induction m with
  | zero =>
    intro _
    constructor
    · intro x hx
      simp only [List.range_zero, List.foldl_nil] at hx
      have := List.eq_of_mem_replicate hx
      omega
    · intro j hj; omega
  | succ m ih =>
    intro hm
    have hm' : m ≤ dist.length := by omega
    obtain ⟨ih1, ih2⟩ := ih hm'
    have hfold : (List.range (m + 1)).foldl (processStep eps dist)
        (List.replicate dist.length (-1)) =
        processStep eps dist ((List.range m).foldl (processStep eps dist)
          (List.replicate dist.length (-1))) m := by
      rw [List.range_succ, List.foldl_append, List.foldl_cons, List.foldl_nil]
    have hlen : ((List.range m).foldl (processStep eps dist)
        (List.replicate dist.length (-1))).length = dist.length := by
      rw [length_foldl_processStep, List.length_replicate]
    constructor
    · rw [hfold]
      exact processStep_ge_neg_one eps dist _ m ih1
    · intro j hj
      rw [hfold]
      rcases Nat.lt_or_ge j m with h | h
      · exact processStep_getD_nonneg_preserved eps dist _ m j ih1 (ih2 j h)
      · have hjm : j = m := by omega
        subst hjm
        exact processStep_getD_r_nonneg eps dist _ j ih1 (by omega)

/-- After the full row loop, every index of the key array holds a
non-negative id: no index is left at the `-1` sentinel. -/
theorem processAll_nonneg (eps : ℚ) (dist : List (List (Option ℚ))) :
    ∀ j, j < dist.length → 0 ≤ (processAll eps dist).getD j (-1) := by
  intro j hj
  exact (foldRows_inv eps dist dist.length le_rfl).2 j hj

theorem processAll_ge_neg_one (eps : ℚ) (dist : List (List (Option ℚ))) :
    ∀ x ∈ processAll eps dist, -1 ≤ x :=
  (foldRows_inv eps dist dist.length le_rfl).1

/-! ## Compaction lemmas (claim C4) -/

theorem mem_intRange {a b z : ℤ} : z ∈ intRange a b ↔ a ≤ z ∧ z ≤ b := by
  unfold intRange
  simp only [List.mem_map, List.mem_range]
  constructor
  · rintro ⟨i, hi, rfl⟩
    omega
  · rintro ⟨h1, h2⟩
    exact ⟨(z - a).toNat, by omega, by omega⟩

theorem pairwise_intRange (a b : ℤ) : List.Pairwise (fun x y => x < y) (intRange a b) := by
  unfold intRange
  rw [List.pairwise_map]
  exact (List.pairwise_lt_range _).imp (by intro i j h; omega)

theorem pairwise_presentVals (keys : List ℤ) :
    List.Pairwise (fun x y => x < y) (presentVals keys) :=
  (pairwise_intRange _ _).filter _

theorem lookupAid_eq_none_of_range {d : List (ℕ × List ℕ)} {a : ℕ}
    (h : d.map Prod.fst = List.range a) : lookupAid d a = none := by
  unfold lookupAid
  have hf : List.find? (fun p => p.1 == a) d = none := by
    rw [List.find?_eq_none]
    intro p hp
    have : p.1 ∈ d.map Prod.fst := List.mem_map_of_mem Prod.fst hp
    rw [h, List.mem_range] at this
    simp only [beq_iff_eq]
    omega
  rw [hf]
  rfl

theorem compactFold_spec (keys : List ℤ) :
    ∀ (vs : List ℤ) (a : ℕ) (d : List (ℕ × List ℕ)),
      d.map Prod.fst = List.range a →
      (compactFold keys vs (a, d)).2 =
        d ++ ((vs.filter (fun k => decide (k ∈ keys))).enumFrom a).map
          (fun p => (p.1, indicesOf keys p.2)) := by
  intro vs
  induction vs with
  | nil =>
    intro a d hd
    simp [compactFold]
  | cons v vs ih =>
    intro a d hd
    by_cases hv : v ∈ keys
    · have hnone : (lookupAid d a).isNone := by
        rw [lookupAid_eq_none_of_range hd]; rfl
      have hstep : compactFold keys (v :: vs) (a, d) =
          compactFold keys vs (a + 1, d ++ [(a, indicesOf keys v)]) := by
        unfold compactFold
        rw [List.foldl_cons]
        simp only [hv, if_true, hnone, if_pos]
      rw [hstep, ih (a + 1) (d ++ [(a, indicesOf keys v)])
        (by rw [List.map_append, hd, List.range_succ]; rfl)]
      simp [List.filter_cons, hv, List.enumFrom_cons]
    · have hstep : compactFold keys (v :: vs) (a, d) = compactFold keys vs (a, d) := by
        unfold compactFold
        rw [List.foldl_cons]
        simp only [hv, if_false]
      rw [hstep, ih a d hd]
      simp [List.filter_cons, hv]

theorem compactSource_eq (keys : List ℤ) :
    compactSource keys = (presentVals keys).enum.map (fun p => (p.1, indicesOf keys p.2)) := by
  unfold compactSource presentVals
  rw [compactFold_spec keys _ 0 [] (by simp)]
  simp [List.enum]

theorem mem_presentVals {keys : List ℤ} {v : ℤ} (hmem : v ∈ keys) :
    v ∈ presentVals keys := by
  unfold presentVals
  rw [List.mem_filter]
  refine ⟨?_, by simpa using hmem⟩
  rw [mem_intRange]
  exact ⟨listMinD_le (-1) hmem, le_listMaxD (-1) hmem⟩

/-- C4. For every distance matrix with at least two rows, the clusterer
produces a total assignment — after the row loop no index is left at the
`-1` sentinel — and the compaction renumbers the present key values, taken
in ascending order over the key range, sequentially from `0`: the emitted
cluster ids are exactly `{0..K-1}` for the `K` discovered clusters, the
`a`-th cluster holds the indices of the `a`-th smallest present key, and
every row index lies in exactly one cluster. -/
theorem C4_total_assignment_and_compaction :
    ∀ (dist : List (List (Option ℚ))), 2 ≤ dist.length →
      (∀ j, j < dist.length → 0 ≤ (processAll epsV2 dist).getD j (-1)) ∧
      (process_dist_mat_v2 dist).map Prod.fst =
        List.range (presentVals (processAll epsV2 dist)).length ∧
      process_dist_mat_v2 dist =
        (presentVals (processAll epsV2 dist)).enum.map
          (fun p => (p.1, indicesOf (processAll epsV2 dist) p.2)) ∧
      List.Pairwise (fun x y => x < y) (presentVals (processAll epsV2 dist)) ∧
      (∀ j, j < dist.length → ∃ p ∈ process_dist_mat_v2 dist, j ∈ p.2) ∧
      (∀ p ∈ process_dist_mat_v2 dist, ∀ q ∈ process_dist_mat_v2 dist,
        ∀ j, j ∈ p.2 → j ∈ q.2 → p = q) := by
  intro dist h2
  have hlen : (processAll epsV2 dist).length = dist.length := length_processAll _ _
  have hsrc : process_dist_mat_v2 dist =
      (presentVals (processAll epsV2 dist)).enum.map
        (fun p => (p.1, indicesOf (processAll epsV2 dist) p.2)) := by
    unfold process_dist_mat_v2
    exact compactSource_eq _
  refine ⟨processAll_nonneg epsV2 dist, ?_, hsrc, pairwise_presentVals _, ?_, ?_⟩
  · rw [hsrc, List.map_map]
    have : (Prod.fst ∘ fun p : ℕ × ℤ => (p.1, indicesOf (processAll epsV2 dist) p.2)) =
        Prod.fst := by
      funext p
      rfl
    rw [this, List.enum_map_fst]
  · intro j hj
    have hjlen : j < (processAll epsV2 dist).length := by omega
    have hvmem : (processAll epsV2 dist).getD j (-1) ∈ processAll epsV2 dist := by
      rw [List.getD_eq_getElem _ _ hjlen]
      exact List.getElem_mem hjlen
    have hpv : (processAll epsV2 dist).getD j (-1) ∈ presentVals (processAll epsV2 dist) :=
      mem_presentVals hvmem
    rcases List.getElem_of_mem hpv with ⟨a, ha, hval⟩
    have halen : a < ((presentVals (processAll epsV2 dist)).enum.map
        (fun p => (p.1, indicesOf (processAll epsV2 dist) p.2))).length := by
      simpa [List.enum_length] using ha
    refine ⟨(a, indicesOf (processAll epsV2 dist) ((processAll epsV2 dist).getD j (-1))), ?_, ?_⟩
    · have hgot : ((presentVals (processAll epsV2 dist)).enum.map
          (fun p => (p.1, indicesOf (processAll epsV2 dist) p.2))).getD a (0, []) =
          (a, indicesOf (processAll epsV2 dist) ((processAll epsV2 dist).getD j (-1))) := by
        rw [List.getD_eq_getElem _ _ halen, List.getElem_map, List.getElem_enum, hval]
      rw [hsrc, ← hgot, List.getD_eq_getElem _ _ halen]
      exact List.getElem_mem halen
    · simp [indicesOf, List.mem_filter, List.mem_range, hjlen]
  · intro p hp q hq j hjp hjq
    rw [hsrc] at hp hq
    rcases List.mem_map.mp hp with ⟨⟨a, v1⟩, he1, rfl⟩
    rcases List.mem_map.mp hq with ⟨⟨b, v2⟩, he2, rfl⟩
    obtain ⟨ha, hv1⟩ := List.mem_enum he1
    obtain ⟨hb, hv2⟩ := List.mem_enum he2
    simp only [indicesOf, List.mem_filter, List.mem_range, decide_eq_true_eq] at hjp hjq
    have hv : v1 = v2 := by rw [← hjp.2, ← hjq.2]
    have hnd : (presentVals (processAll epsV2 dist)).Nodup :=
      (pairwise_presentVals _).imp (fun h => ne_of_lt h)
    have hpv : (presentVals (processAll epsV2 dist))[a] =
        (presentVals (processAll epsV2 dist))[b] :=
      hv1.symm.trans (hv.trans hv2)
    have hab : a = b := (hnd.getElem_inj_iff).mp hpv
    rw [hv, hab]

/-- Witness for C2 at the concrete example, row 1: the hypotheses hold and
the masked row is the raw row with its first-minimum cell overwritten. -/
theorem C2_distance_matrix_masking_witness :
    1 < Eex.length ∧ rawDistRow Eex 1 ≠ [] ∧
    (compute_distance_matrix Eex).getD 1 [] =
      ((rawDistRow Eex 1).map some).set (argminFirst (rawDistRow Eex 1)) none := by
  have h1 : 1 < Eex.length := by norm_num [Eex]
  have h2 : rawDistRow Eex 1 ≠ [] := by simp [rawDistRow, simRow, Eex]
  exact ⟨h1, h2, (C2_distance_matrix_masking.1 Eex 1 h1 h2).2.1⟩

/-- Witness for C4 at a concrete two-row matrix: row index 0 is assigned a
non-negative cluster key after the loop. -/
theorem C4_total_assignment_and_compaction_witness :
    2 ≤ ([[], []] : List (List (Option ℚ))).length ∧
    0 ≤ (processAll epsV2 ([[], []] : List (List (Option ℚ)))).getD 0 (-1) :=
  ⟨by decide,
    (C4_total_assignment_and_compaction [[], []] (by decide)).1 0 (by decide)⟩

/-! ## Cache round-trip and key uniqueness (claim C5) -/

theorem keyMatch_self (iid : ℤ) (h t : String) (v : List ℚ) (now : ℤ) :
    keyMatch ⟨iid, h, t, v, now⟩ iid h t = true := by
  simp [keyMatch]

theorem find?_insertOrReplace (s : EmbStore) (iid : ℤ) (h t : String) (v : List ℚ)
    (now : ℤ) :
    (insertOrReplace s iid h t v now).find? (fun rc => keyMatch rc iid h t) =
      some ⟨iid, h, t, v, now⟩ := by
  unfold insertOrReplace
  rw [List.find?_append]
  have hnone : (s.filter (fun rc => ! keyMatch rc iid h t)).find?
      (fun rc => keyMatch rc iid h t) = none := by
    rw [List.find?_eq_none]
    intro rc hrc
    have := (List.mem_filter.mp hrc).2
    simp only [Bool.not_eq_true'] at this
    simp [this]
  rw [hnone]
  simp [List.find?_cons, keyMatch_self]

/-- C5. Cache round-trip and uniqueness: storing a vector under
`(image_id, bbox, variant)` and reading the same key back returns exactly
the float32 cast of the vector (the store serializes the cast vector, the
read returns it bit-exactly), and the `INSERT OR REPLACE` write leaves
exactly one record under that key, whatever the store held before. -/
theorem C5_cache_round_trip :
    ∀ (s : EmbStore) (iid : ℤ) (bbox : List ℚ) (t : String) (v : List ℚ)
      (f32 : ℚ → ℚ) (now : ℤ),
      get_embedding (store_embedding s iid bbox t v f32 now) iid bbox t =
        some (v.map f32) ∧
      countKey (store_embedding s iid bbox t v f32 now) iid (bbox_to_hash bbox) t = 1 := by
  intro s iid bbox t v f32 now
  constructor
  · unfold get_embedding store_embedding
    rw [find?_insertOrReplace]
    rfl
  · unfold countKey store_embedding insertOrReplace
    rw [List.filter_append]
    have h1 : (s.filter (fun rc => ! keyMatch rc iid (bbox_to_hash bbox) t)).filter
        (fun rc => keyMatch rc iid (bbox_to_hash bbox) t) = [] := by
      rw [List.filter_eq_nil_iff]
      intro rc hrc
      have := (List.mem_filter.mp hrc).2
      simp only [Bool.not_eq_true'] at this
      simp [this]
    rw [h1]
    simp [keyMatch_self]

/-! ## Bbox hash coarsening (claim C6) -/

theorem intTrunc_eval_pos (q : ℚ) (hq : 0 ≤ q) : intTrunc q = ⌊q⌋ := by
  rw [intTrunc, if_pos hq]

theorem intTrunc_eval_neg (q : ℚ) (hq : ¬ 0 ≤ q) : intTrunc q = ⌈q⌉ := by
  rw [intTrunc, if_neg hq]

/-- C6. The cache key hash of a bbox is `"{x1}_{y1}_{x2}_{y2}"` with each
coordinate truncated toward zero before formatting: the jittered box
`[1.2, 3.7, 4.1, 5.9]` intentionally collides with `[1, 3, 4, 5]`, while
truncation is not flooring — `hash(bbox) = hash(map floor bbox)` fails in
general (witnessed below by a negative coordinate). -/
theorem C6_bbox_hash_coarsening :
    bbox_to_hash [6/5, 37/10, 41/10, 59/10] = bbox_to_hash [1, 3, 4, 5] ∧
    ¬ (∀ bbox : List ℚ, bbox_to_hash bbox =
        bbox_to_hash (bbox.map (fun x => ((⌊x⌋ : ℤ) : ℚ)))) := by
  have t1 : intTrunc (6/5) = 1 := by rw [intTrunc_eval_pos _ (by norm_num)]; norm_num
  have t2 : intTrunc (37/10) = 3 := by rw [intTrunc_eval_pos _ (by norm_num)]; norm_num
  have t3 : intTrunc (41/10) = 4 := by rw [intTrunc_eval_pos _ (by norm_num)]; norm_num
  have t4 : intTrunc (59/10) = 5 := by rw [intTrunc_eval_pos _ (by norm_num)]; norm_num
  have u1 : intTrunc 1 = 1 := by rw [intTrunc_eval_pos _ (by norm_num)]; norm_num
  have u2 : intTrunc 3 = 3 := by rw [intTrunc_eval_pos _ (by norm_num)]; norm_num
  have u3 : intTrunc 4 = 4 := by rw [intTrunc_eval_pos _ (by norm_num)]; norm_num
  have u4 : intTrunc 5 = 5 := by rw [intTrunc_eval_pos _ (by norm_num)]; norm_num
  constructor
  · simp only [bbox_to_hash, List.getD_cons_zero, List.getD_cons_succ]
    rw [t1, t2, t3, t4, u1, u2, u3, u4]
  · intro h
    have h' := h [-3/2, 0, 0, 0]
    have hmap : ([-3/2, 0, 0, 0] : List ℚ).map (fun x => ((⌊x⌋ : ℤ) : ℚ)) =
        [((⌊(-3/2 : ℚ)⌋ : ℤ) : ℚ), ((⌊(0 : ℚ)⌋ : ℤ) : ℚ), ((⌊(0 : ℚ)⌋ : ℤ) : ℚ),
          ((⌊(0 : ℚ)⌋ : ℤ) : ℚ)] := by
      simp [List.map]
    have hf : (⌊(-3/2 : ℚ)⌋ : ℤ) = -2 := by norm_num
    have hf0 : (⌊(0 : ℚ)⌋ : ℤ) = 0 := by norm_num
    have v1 : intTrunc (-3/2) = -1 := by
      rw [intTrunc_eval_neg _ (by norm_num),
        show ((-3/2 : ℚ)) = -(3/2) by norm_num, Int.ceil_neg]
      norm_num
    have v0 : intTrunc 0 = 0 := by rw [intTrunc_eval_pos _ le_rfl]; norm_num
    have w1 : intTrunc (((-2 : ℤ) : ℚ)) = -2 := by
      rw [intTrunc_eval_neg _ (by norm_num),
        show (((-2 : ℤ) : ℚ)) = -((2 : ℤ) : ℚ) by norm_num, Int.ceil_neg]
      norm_num
    have w0 : intTrunc (((0 : ℤ) : ℚ)) = 0 := by
      rw [intTrunc_eval_pos _ (by norm_num)]
      norm_num
    rw [hmap, hf, hf0] at h'
    simp only [bbox_to_hash, List.getD_cons_zero, List.getD_cons_succ] at h'
    rw [v1, v0, w1, w0] at h'
    exact absurd h' (by decide)

/-! ## Batch-store transaction behavior (claim C7) -/

theorem foldl_batchExec_durable (t : String) (f32 : ℚ → ℚ) (now : ℤ)
    (items : List (ℤ × List ℚ × List ℚ)) (c : SqlConn) :
    (items.foldl (batchExec t f32 now) c).durable = c.durable := by
  induction items generalizing c with
  | nil => rfl
  | cons it items ih => rw [List.foldl_cons, ih]; rfl

theorem foldl_batchExec_pending (t : String) (f32 : ℚ → ℚ) (now : ℤ)
    (items : List (ℤ × List ℚ × List ℚ)) (c : SqlConn) :
    (items.foldl (batchExec t f32 now) c).pending =
      items.foldl
        (fun s it => insertOrReplace s it.1 (bbox_to_hash it.2.1) t (it.2.2.map f32) now)
        c.pending := by
  induction items generalizing c with
  | nil => rfl
  | cons it items ih => rw [List.foldl_cons, ih]; rfl

/-- Counterexample to C7 as stated: no abort point of
`store_embeddings_batch` leaves the durable store changed at all — in
particular no partial failure leaves some entries of the batch durably
written and others not.  All inserts run inside one transaction whose
single `commit` is skipped on failure, and closing the connection
discards the open transaction. -/
theorem C7_batch_partial_write_counterexample :
    ¬ ∃ (db : EmbStore) (items : List (ℤ × List ℚ × List ℚ)) (t : String)
        (f32 : ℚ → ℚ) (now : ℤ) (k : ℕ),
        batchAbortedAt db items t f32 now k ≠ db := by
  rintro ⟨db, items, t, f32, now, k, hne⟩
  exact hne (by unfold batchAbortedAt sqlClose; rw [foldl_batchExec_durable]; rfl)

/-- C7 (amended). `store_embeddings_batch` is atomic per call: a failure
before the final single `commit` (at any point `k` of the insert loop, the
`finally` close rolling the open transaction back) leaves the durable
store exactly as it was, and a completed call durably applies every
`INSERT OR REPLACE` of the batch in order. -/
theorem C7_batch_store_atomicity :
    ∀ (db : EmbStore) (items : List (ℤ × List ℚ × List ℚ)) (t : String)
      (f32 : ℚ → ℚ) (now : ℤ),
      (∀ k, batchAbortedAt db items t f32 now k = db) ∧
      store_embeddings_batch db items t f32 now =
        items.foldl
          (fun s it => insertOrReplace s it.1 (bbox_to_hash it.2.1) t (it.2.2.map f32) now)
          db := by
  intro db items t f32 now
  constructor
  · intro k
    unfold batchAbortedAt sqlClose
    rw [foldl_batchExec_durable]
    rfl
  · unfold store_embeddings_batch sqlClose sqlCommit
    rw [foldl_batchExec_pending]
    rfl

/-! ## Cache tier priority (claim C3) -/

/-- C3. The dispatcher classifies each detection into exactly one tier in
strict priority order: a final-variant (reid) cache hit is used directly
with no model invocation — even when an intermediate-variant record is
also present; otherwise an intermediate-variant (raw) hit gets only the
adapter applied to the cached intermediate vector, without the backbone;
only a detection with neither record runs backbone plus adapter. -/
theorem C3_cache_tier_priority :
    ∀ (Img : Type) (store : EmbStore) (species : String) (det : DetIn Img)
      (adapt : List ℚ → List ℚ) (backbone : Img → List ℚ) (iid : ℤ),
      det.image_id = some iid →
      ((∀ e, get_embedding store iid det.bbox (reidTypeOf species) = some e →
        tierOf (some store) species det = Tier.fullyCached ∧
        dispatchEmbedding (some store) species adapt backbone det = (e, false, false)) ∧
      (get_embedding store iid det.bbox (reidTypeOf species) = none →
        ∀ w, get_embedding store iid det.bbox RAW_FOR_ADAPTER_TYPE = some w →
        tierOf (some store) species det = Tier.adapterOnly ∧
        dispatchEmbedding (some store) species adapt backbone det = (adapt w, false, true)) ∧
      (get_embedding store iid det.bbox (reidTypeOf species) = none →
        get_embedding store iid det.bbox RAW_FOR_ADAPTER_TYPE = none →
        tierOf (some store) species det = Tier.fullCompute ∧
        dispatchEmbedding (some store) species adapt backbone det =
          (adapt (backbone det.crop), true, true))) := by
  intro Img store species det adapt backbone iid him
  refine ⟨?_, ?_, ?_⟩
  · intro e hre
    unfold tierOf dispatchEmbedding
    rw [him]
    dsimp only
    rw [hre]
    exact ⟨rfl, rfl⟩
  · intro hre w hraw
    unfold tierOf dispatchEmbedding
    rw [him]
    dsimp only
    rw [hre, hraw]
    exact ⟨rfl, rfl⟩
  · intro hre hraw
    unfold tierOf dispatchEmbedding
    rw [him]
    dsimp only
    rw [hre, hraw]
    exact ⟨rfl, rfl⟩

/-- The concrete detection of the C3 witness. -/
def detW : DetIn Unit := ⟨1, some 5, [1, 2, 3, 4], ()⟩

/-- The concrete store of the C3 witness: it holds both the
intermediate-variant record (`[9]`) and the final-variant record (`[7]`)
for the same image and bbox. -/
def storeW : EmbStore :=
  store_embedding
    (store_embedding [] 5 [1, 2, 3, 4] RAW_FOR_ADAPTER_TYPE [9] id 0)
    5 [1, 2, 3, 4] (reidTypeOf "stoat") [7] id 0

/-- Witness for C3: on a store holding both variants, tier 1 is chosen,
the cached final vector is used, and neither model stage runs — although
the intermediate record is present. -/
theorem C3_cache_tier_priority_witness :
    tierOf (some storeW) "stoat" detW = Tier.fullyCached ∧
    dispatchEmbedding (some storeW) "stoat" id (fun _ => []) detW = ([7], false, false) ∧
    get_embedding storeW 5 detW.bbox RAW_FOR_ADAPTER_TYPE = some [9] := by
  have h := (C3_cache_tier_priority Unit storeW "stoat" detW id (fun _ => []) 5
    (by decide)).1 [7] (by decide)
  exact ⟨h.1, h.2, by decide⟩

/-! ## Counting lemmas for the failure-marking fold (claims C8, C9, C10) -/

/-- Number of detections with id `x` whose processing fails. -/
def failCountOn (x : ℤ) (dets : List DetR) : ℕ :=
  (dets.filter (fun d => d.outcome.isNone && decide (d.detection_id = x))).length

/-- Number of detections with id `x` whose processing succeeds. -/
def succCountOn (x : ℤ) (dets : List DetR) : ℕ :=
  (dets.filter (fun d => d.outcome.isSome && decide (d.detection_id = x))).length

/-- Total number of failing detections. -/
def totalFail (dets : List DetR) : ℕ :=
  (dets.filter (fun d => d.outcome.isNone)).length

theorem replaceFirstNone_not_mem (st : List (Option ℤ)) (x : ℤ)
    (h : some x ∉ st) : replaceFirstNone st x = st := by
  induction st with
  | nil => rfl
  | cons a t ih =>
    cases a with
    | none =>
      rw [replaceFirstNone, ih (fun hm => h (List.mem_cons_of_mem _ hm))]
    | some y =>
      have hyx : y ≠ x := fun hy => h (by rw [hy]; exact List.mem_cons_self _ _)
      rw [replaceFirstNone, if_neg hyx, ih (fun hm => h (List.mem_cons_of_mem _ hm))]

theorem replaceFirstNone_length (st : List (Option ℤ)) (x : ℤ) :
    (replaceFirstNone st x).length = st.length := by
  induction st with
  | nil => rfl
  | cons a t ih =>
    cases a with
    | none => rw [replaceFirstNone]; simp [ih]
    | some y =>
      by_cases h : y = x
      · rw [replaceFirstNone, if_pos h]; simp
      · rw [replaceFirstNone, if_neg h]; simp [ih]

theorem replaceFirstNone_count_self (st : List (Option ℤ)) (x : ℤ)
    (h : some x ∈ st) :
    (replaceFirstNone st x).count (some x) + 1 = st.count (some x) := by
  induction st with
  | nil => cases h
  | cons a t ih =>
    cases a with
    | none =>
      have hm : some x ∈ t := by
        rcases List.mem_cons.mp h with h' | h'
        · cases h'
        · exact h'
      rw [replaceFirstNone]
      rw [List.count_cons, List.count_cons]
      simp only [show ((none : Option ℤ) == some x) = false from rfl,
        Bool.false_eq_true, if_false, Nat.add_zero]
      exact ih hm
    | some y =>
      by_cases hyx : y = x
      · subst hyx
        rw [replaceFirstNone, if_pos rfl, List.count_cons, List.count_cons]
        simp
      · have hm : some x ∈ t := by
          rcases List.mem_cons.mp h with h' | h'
          · exact absurd (Option.some.inj h'.symm) hyx
          · exact h'
        rw [replaceFirstNone, if_neg hyx, List.count_cons, List.count_cons]
        have := ih hm
        simp only [beq_iff_eq, Option.some.injEq, hyx, if_false]
        omega

theorem replaceFirstNone_count_some_ne (st : List (Option ℤ)) (x y : ℤ)
    (hxy : y ≠ x) :
    (replaceFirstNone st x).count (some y) = st.count (some y) := by
  induction st with
  | nil => rfl
  | cons a t ih =>
    cases a with
    | none =>
      rw [replaceFirstNone, List.count_cons, List.count_cons, ih]
    | some z =>
      by_cases hzx : z = x
      · rw [replaceFirstNone, if_pos hzx, List.count_cons, List.count_cons]
        have hns : ((some z : Option ℤ) == some y) = false := by
          simp [hzx, Ne.symm hxy]
        have hnn : ((none : Option ℤ) == some y) = false := rfl
        rw [hns, hnn]
      · rw [replaceFirstNone, if_neg hzx, List.count_cons, List.count_cons, ih]

theorem replaceFirstNone_count_none (st : List (Option ℤ)) (x : ℤ)
    (h : some x ∈ st) :
    (replaceFirstNone st x).count none = st.count none + 1 := by
  induction st with
  | nil => cases h
  | cons a t ih =>
    cases a with
    | none =>
      have hm : some x ∈ t := by
        rcases List.mem_cons.mp h with h' | h'
        · cases h'
        · exact h'
      rw [replaceFirstNone, List.count_cons, List.count_cons, ih hm]
      simp only [show ((none : Option ℤ) == none) = true from rfl, if_pos]
    | some z =>
      by_cases hzx : z = x
      · rw [replaceFirstNone, if_pos hzx, List.count_cons, List.count_cons]
        simp only [show ((none : Option ℤ) == none) = true from rfl,
          show ((some z : Option ℤ) == none) = false from rfl,
          Bool.false_eq_true, if_false, if_pos, Nat.add_zero]
      · have hm : some x ∈ t := by
          rcases List.mem_cons.mp h with h' | h'
          · exact absurd (Option.some.inj h'.symm) hzx
          · exact h'
        rw [replaceFirstNone, if_neg hzx, List.count_cons, List.count_cons, ih hm]
        simp only [show ((some z : Option ℤ) == none) = false from rfl,
          Bool.false_eq_true, if_false, Nat.add_zero]

theorem failCountOn_cons (x : ℤ) (d : DetR) (dets : List DetR) :
    failCountOn x (d :: dets) =
      (if d.outcome.isNone ∧ d.detection_id = x then 1 else 0) + failCountOn x dets := by
  unfold failCountOn
  rw [List.filter_cons]
  by_cases h1 : d.outcome.isNone <;> by_cases h2 : d.detection_id = x <;>
    simp [h1, h2] <;> omega

theorem succCountOn_cons (x : ℤ) (d : DetR) (dets : List DetR) :
    succCountOn x (d :: dets) =
      (if d.outcome.isSome ∧ d.detection_id = x then 1 else 0) + succCountOn x dets := by
  unfold succCountOn
  rw [List.filter_cons]
  by_cases h1 : d.outcome.isSome <;> by_cases h2 : d.detection_id = x <;>
    simp [h1, h2] <;> omega

theorem totalFail_cons (d : DetR) (dets : List DetR) :
    totalFail (d :: dets) = (if d.outcome.isNone then 1 else 0) + totalFail dets := by
  unfold totalFail
  rw [List.filter_cons]
  by_cases h1 : d.outcome.isNone <;> simp [h1] <;> omega

theorem markFold_count (dets : List DetR) :
    ∀ (st : List (Option ℤ)),
      (∀ y : ℤ, failCountOn y dets ≤ st.count (some y)) →
      (∀ x : ℤ, (dets.foldl markStep st).count (some x) + failCountOn x dets
          = st.count (some x)) ∧
      (dets.foldl markStep st).count none = st.count none + totalFail dets ∧
      (dets.foldl markStep st).length = st.length := by
  induction dets with
  | nil =>
    intro st _
    refine ⟨?_, ?_, rfl⟩ <;> simp [failCountOn, totalFail]
  | cons d dets ih =>
    intro st hst
    rw [List.foldl_cons]
    cases hout : d.outcome with
    | some v =>
      have hstep : markStep st d = st := by rw [markStep, hout]
      rw [hstep]
      have hle : ∀ y, failCountOn y dets ≤ st.count (some y) := by
        intro y
        have hy := hst y
        rw [failCountOn_cons] at hy
        omega
      obtain ⟨hc, hn, hl⟩ := ih st hle
      refine ⟨?_, ?_, hl⟩
      · intro x
        have hz : (if d.outcome.isNone ∧ d.detection_id = x then 1 else 0) = 0 := by
          simp [hout]
        rw [failCountOn_cons, hz]
        have := hc x
        omega
      · have hz : (if d.outcome.isNone then 1 else 0) = 0 := by simp [hout]
        rw [totalFail_cons, hz]
        omega
    | none =>
      have hstep : markStep st d = replaceFirstNone st d.detection_id := by
        rw [markStep, hout]
      have hone : (if d.outcome.isNone ∧ d.detection_id = d.detection_id then 1 else 0)
          = 1 := by simp [hout]
      have hpresent : some d.detection_id ∈ st := by
        have hy := hst d.detection_id
        rw [failCountOn_cons, hone] at hy
        exact List.count_pos_iff.mp (by omega)
      have hself := replaceFirstNone_count_self st d.detection_id hpresent
      have hle : ∀ y, failCountOn y dets ≤
          (replaceFirstNone st d.detection_id).count (some y) := by
        intro y
        by_cases hy : y = d.detection_id
        · have h2 := hst y
          rw [failCountOn_cons] at h2
          have h3 : (if d.outcome.isNone ∧ d.detection_id = y then 1 else 0) = 1 := by
            simp [hout, hy.symm]
          have h4 : (replaceFirstNone st d.detection_id).count (some y) + 1 =
              st.count (some y) := by
            rw [hy]
            exact hself
          omega
        · rw [replaceFirstNone_count_some_ne st _ _ hy]
          have h2 := hst y
          rw [failCountOn_cons] at h2
          omega
      obtain ⟨hc, hn, hl⟩ := ih (replaceFirstNone st d.detection_id) hle
      rw [hstep]
      refine ⟨?_, ?_, ?_⟩
      · intro x
        rw [failCountOn_cons]
        by_cases hx : d.detection_id = x
        · subst hx
          have := hc d.detection_id
          rw [hone]
          omega
        · have hz : (if d.outcome.isNone ∧ d.detection_id = x then 1 else 0) = 0 := by
            simp [hx]
          rw [hz]
          have h5 := hc x
          have h6 := replaceFirstNone_count_some_ne st d.detection_id x
            (fun h => hx h.symm)
          omega
      · have ho : (if d.outcome.isNone then 1 else 0) = 1 := by simp [hout]
        rw [totalFail_cons, ho]
        have h4 := replaceFirstNone_count_none st d.detection_id hpresent
        omega
      · rw [hl, replaceFirstNone_length]

theorem count_init_some (dets : List DetR) (x : ℤ) :
    (dets.map (fun d => some d.detection_id)).count (some x) =
      failCountOn x dets + succCountOn x dets := by
  induction dets with
  | nil => simp [failCountOn, succCountOn]
  | cons d dets ih =>
    rw [List.map_cons, List.count_cons, failCountOn_cons, succCountOn_cons, ih]
    cases hout : d.outcome <;> by_cases hid : d.detection_id = x <;>
      simp [hout, hid] <;> omega

theorem count_init_none (dets : List DetR) :
    (dets.map (fun d => some d.detection_id)).count none = 0 := by
  induction dets with
  | nil => rfl
  | cons d dets ih =>
    rw [List.map_cons, List.count_cons]
    simp [ih]

theorem markFold_hyp (dets : List DetR) :
    ∀ y, failCountOn y dets ≤ (dets.map (fun d => some d.detection_id)).count (some y) := by
  intro y
  rw [count_init_some]
  omega

theorem markFailures_count (dets : List DetR) (x : ℤ) :
    (markFailures dets).count (some x) = succCountOn x dets := by
  unfold markFailures
  have h := (markFold_count dets _ (markFold_hyp dets)).1 x
  rw [count_init_some] at h
  omega

theorem markFailures_count_none (dets : List DetR) :
    (markFailures dets).count none = totalFail dets := by
  unfold markFailures
  have h := (markFold_count dets _ (markFold_hyp dets)).2.1
  rw [count_init_none] at h
  omega

theorem markFailures_length (dets : List DetR) :
    (markFailures dets).length = dets.length := by
  unfold markFailures
  rw [(markFold_count dets _ (markFold_hyp dets)).2.2, List.length_map]

theorem length_filterMap_id (l : List (Option ℤ)) :
    (l.filterMap id).length + l.count none = l.length := by
  induction l with
  | nil => rfl
  | cons a t ih =>
    cases a with
    | none =>
      rw [List.filterMap_cons, List.count_cons]
      simp only [id, show ((none : Option ℤ) == none) = true from rfl, if_pos,
        List.length_cons]
      omega
    | some y =>
      rw [List.filterMap_cons, List.count_cons]
      simp only [id, show ((some y : Option ℤ) == none) = false from rfl,
        Bool.false_eq_true, if_false, Nat.add_zero, List.length_cons]
      omega

theorem survivingIds_length (dets : List DetR) :
    (survivingIds dets).length + totalFail dets = dets.length := by
  unfold survivingIds
  have h := length_filterMap_id (markFailures dets)
  rw [markFailures_count_none, markFailures_length] at h
  exact h

theorem succCountOn_pos_iff (dets : List DetR) (x : ℤ) :
    0 < succCountOn x dets ↔ ∃ d ∈ dets, d.detection_id = x ∧ d.outcome.isSome := by
  unfold succCountOn
  rw [← List.countP_eq_length_filter, List.countP_pos_iff]
  constructor
  · rintro ⟨d, hd, hp⟩
    simp only [Bool.and_eq_true, decide_eq_true_eq] at hp
    exact ⟨d, hd, hp.2, hp.1⟩
  · rintro ⟨d, hd, hid, hsome⟩
    exact ⟨d, hd, by simp [hid, hsome]⟩

theorem mem_survivingIds (dets : List DetR) (x : ℤ) :
    x ∈ survivingIds dets ↔ 0 < succCountOn x dets := by
  unfold survivingIds
  rw [← markFailures_count dets x, List.count_pos_iff]
  simp [List.mem_filterMap]

theorem combineFold_eq (S : List ℤ) (dets : List DetR)
    (h : ∀ d ∈ dets, d.outcome.isSome → d.detection_id ∈ S) :
    ∀ acc, dets.foldl (combineStep S) acc = acc ++ dets.filterMap (fun d => d.outcome) := by
  induction dets with
  | nil => intro acc; simp
  | cons d dets ih =>
    intro acc
    rw [List.foldl_cons, List.filterMap_cons]
    have h' : ∀ d' ∈ dets, d'.outcome.isSome → d'.detection_id ∈ S :=
      fun d' hd' => h d' (List.mem_cons_of_mem _ hd')
    cases hout : d.outcome with
    | some e =>
      have hmem : d.detection_id ∈ S := h d (List.mem_cons_self _ _) (by simp [hout])
      have hstep : combineStep S acc d = acc ++ [e] := by
        unfold combineStep
        rw [hout, if_pos hmem]
      rw [hstep, ih h' (acc ++ [e])]
      simp
    | none =>
      have hstep : combineStep S acc d = acc := by
        unfold combineStep
        rw [hout]
        split <;> rfl
      rw [hstep, ih h' acc]

theorem combinedEmbs_eq (dets : List DetR) :
    combinedEmbs dets = dets.filterMap (fun d => d.outcome) := by
  unfold combinedEmbs
  rw [combineFold_eq (survivingIds dets) dets ?hmem []]
  · rfl
  case hmem =>
    intro d hd hsome
    rw [mem_survivingIds]
    exact (succCountOn_pos_iff dets d.detection_id).mpr ⟨d, hd, rfl, hsome⟩

theorem filterMap_outcome_length (dets : List DetR) :
    (dets.filterMap (fun d => d.outcome)).length + totalFail dets = dets.length := by
  induction dets with
  | nil => rfl
  | cons d dets ih =>
    rw [List.filterMap_cons, totalFail_cons]
    cases hout : d.outcome <;> simp [hout] <;> omega

theorem length_compute_distance_matrix (E : List (List ℚ)) :
    (compute_distance_matrix E).length = E.length := by
  simp [compute_distance_matrix]

theorem mem_compactSource_lt (keys : List ℤ) :
    ∀ p ∈ compactSource keys, ∀ i ∈ p.2, i < keys.length := by
  intro p hp i hi
  rw [compactSource_eq] at hp
  rcases List.mem_map.mp hp with ⟨⟨a, v⟩, _, rfl⟩
  simp only [indicesOf, List.mem_filter, List.mem_range] at hi
  exact hi.1

/-- C8. A detection whose load/crop fails is excluded from the embedding
list while the rest of the batch is still processed (no abort, no
placeholder): the combine loop yields exactly the successful detections'
embeddings in order; the surviving identifier list has the same length, so
the `i`-th surviving embedding is labeled with the `i`-th surviving
identifier; every surviving identifier — and hence every identifier in the
formatted output — is the id of a successfully processed detection. -/
theorem C8_load_failure_exclusion :
    ∀ (dets : List DetR),
      combinedEmbs dets = dets.filterMap (fun d => d.outcome) ∧
      (survivingIds dets).length = (combinedEmbs dets).length ∧
      (∀ x ∈ survivingIds dets, ∃ d ∈ dets, d.detection_id = x ∧ d.outcome.isSome) ∧
      (∀ ind ∈ (format_output_with_detection_ids (survivingIds dets)
          (process_dist_mat_v2 (compute_distance_matrix (combinedEmbs dets)))).individuals,
        ∀ y ∈ ind.detection_ids, ∃ d ∈ dets, d.detection_id = y ∧ d.outcome.isSome) := by
  intro dets
  have h1 := combinedEmbs_eq dets
  have hlen : (survivingIds dets).length = (combinedEmbs dets).length := by
    have ha := survivingIds_length dets
    have hb := filterMap_outcome_length dets
    rw [h1]
    omega
  have h3 : ∀ x ∈ survivingIds dets, ∃ d ∈ dets, d.detection_id = x ∧ d.outcome.isSome := by
    intro x hx
    exact (succCountOn_pos_iff dets x).mp ((mem_survivingIds dets x).mp hx)
  refine ⟨h1, hlen, h3, ?_⟩
  intro ind hind y hy
  unfold format_output_with_detection_ids at hind
  rcases List.mem_map.mp hind with ⟨p, hp, rfl⟩
  rcases List.mem_map.mp hy with ⟨i, hip, rfl⟩
  unfold process_dist_mat_v2 at hp
  have hilt : i < (processAll epsV2 (compute_distance_matrix (combinedEmbs dets))).length :=
    mem_compactSource_lt _ p hp i hip
  have hilt2 : i < (survivingIds dets).length := by
    rw [length_processAll, length_compute_distance_matrix] at hilt
    omega
  apply h3
  rw [List.getD_eq_getElem _ _ hilt2]
  exact List.getElem_mem hilt2

/-- Witness for C8 at a concrete batch with one failing detection: the
failed detection is dropped from the embedding list, and the surviving
identifier `7` belongs to the successfully processed detection. -/
theorem C8_load_failure_exclusion_witness :
    combinedEmbs [⟨7, some [1]⟩, ⟨9, none⟩] =
      ([⟨7, some [1]⟩, ⟨9, none⟩] : List DetR).filterMap (fun d => d.outcome) ∧
    (∃ d ∈ ([⟨7, some [1]⟩, ⟨9, none⟩] : List DetR),
      d.detection_id = 7 ∧ d.outcome.isSome) :=
  ⟨(C8_load_failure_exclusion [⟨7, some [1]⟩, ⟨9, none⟩]).1,
   (C8_load_failure_exclusion [⟨7, some [1]⟩, ⟨9, none⟩]).2.2.1 7 (by decide)⟩

theorem compute_distance_matrix_singleton (e : List ℚ) :
    compute_distance_matrix [e] = [[none]] := by
  unfold compute_distance_matrix
  have hrow : rawDistRow [e] 0 = [1 - dot e e] := by
    simp [rawDistRow, simRow]
  have hargmin : argminFirst [1 - dot e e] = 0 := by
    simp [argminFirst, listMinD, List.findIdx_cons]
  show [maskRow (rawDistRow [e] 0)] = [[none]]
  rw [hrow]
  unfold maskRow
  rw [hargmin]
  rfl

theorem process_dist_mat_singleton_inf : process_dist_mat_v2 [[none]] = [(0, [0])] := by
  decide

/-- Counterexample to C9 as stated.  A singleton batch whose one detection
would fail to load has zero valid items, yet the job emits the
single-individual output `ID-0` — not the empty-individuals output (the
`len == 1` shortcut fires before any validation).  And on a two-detection
batch where exactly one valid item remains after the failure (its
successful detections number one), the distance-matrix/clustering code
path IS invoked: the `runJob` flag recording entry into that path is
`true`. -/
theorem C9_degenerate_shortcuts_counterexample :
    ([⟨42, none⟩] : List DetR).filter (fun d => d.outcome.isSome) = [] ∧
    runJob [⟨42, none⟩] = (⟨[⟨"ID-0", [42]⟩]⟩, false) ∧
    (⟨[⟨"ID-0", [(42 : ℤ)]⟩]⟩ : JobOutput) ≠ ⟨[]⟩ ∧
    (([⟨1, some [1]⟩, ⟨2, none⟩] : List DetR).filter
      (fun d => d.outcome.isSome)).length = 1 ∧
    (runJob [⟨1, some [1]⟩, ⟨2, none⟩]).2 = true :=
  ⟨by decide, by decide, by decide, by decide, rfl⟩

/-- C9 (amended).  Degenerate-size shortcuts of `run`: an empty detection
list yields the empty-individuals output; a single input detection yields
one individual `"ID-0"` holding its id without invoking the
distance-matrix or clustering code path — the shortcut fires before any
validation, so this holds whether or not that detection is valid; with at
least two input detections, zero valid items remaining after filtering
yields the empty-individuals output without invoking distance/clustering;
but with at least two input detections and exactly one valid item
remaining, the distance-matrix and clustering code path IS invoked (on a
1×1 all-masked matrix), and only its output coincides with the
single-individual form `"ID-0"` holding the surviving detection's id.  In
every case the job terminates successfully with an output document. -/
theorem C9_degenerate_shortcuts_amended :
    runJob [] = (⟨[]⟩, false) ∧
    (∀ d : DetR, runJob [d] = (⟨[⟨"ID-0", [d.detection_id]⟩]⟩, false)) ∧
    (∀ dets : List DetR, 2 ≤ dets.length → (∀ d ∈ dets, d.outcome = none) →
      runJob dets = (⟨[]⟩, false)) ∧
    (∀ dets : List DetR, 2 ≤ dets.length → (combinedEmbs dets).length = 1 →
      runJob dets =
        (⟨[⟨"ID-0", [(survivingIds dets).getD 0 0]⟩]⟩, true)) := by
  refine ⟨rfl, ?_, ?_, ?_⟩
  · intro d
    rfl
  · intro dets h2 hall
    have hemb : combinedEmbs dets = [] := by
      rw [combinedEmbs_eq]
      exact List.filterMap_eq_nil_iff.mpr (fun d hd => hall d hd)
    unfold runJob
    rw [if_neg (by omega), if_neg (by omega)]
    dsimp only
    rw [hemb]
    rfl
  · intro dets h2 hone
    obtain ⟨e, he⟩ := List.length_eq_one.mp hone
    have hstr : ("ID-" ++ toString (0 : ℕ)) = "ID-0" := by decide
    unfold runJob
    rw [if_neg (by omega), if_neg (by omega)]
    dsimp only
    rw [he, if_neg (by simp), compute_distance_matrix_singleton e,
      process_dist_mat_singleton_inf]
    unfold format_output_with_detection_ids
    simp only [List.map_cons, List.map_nil, hstr]

/-- Witness for the amended C9 at a concrete two-detection batch with one
failure: exactly one valid item remains, and the clustering path runs yet
emits the single-individual output labeled with the surviving id. -/
theorem C9_degenerate_shortcuts_amended_witness :
    2 ≤ ([⟨1, some [1]⟩, ⟨2, none⟩] : List DetR).length ∧
    (combinedEmbs [⟨1, some [1]⟩, ⟨2, none⟩]).length = 1 ∧
    runJob [⟨1, some [1]⟩, ⟨2, none⟩] =
      (⟨[⟨"ID-0", [(survivingIds [⟨1, some [1]⟩, ⟨2, none⟩]).getD 0 0]⟩]⟩, true) :=
  ⟨by decide, by decide,
   C9_degenerate_shortcuts_amended.2.2.2 [⟨1, some [1]⟩, ⟨2, none⟩]
     (by decide) (by decide)⟩

/-! ## Positional behavior of failure marking (claim C10) -/

/-- The mark a detection's slot ends with when its own failure (if any)
is the one that hits it: `none` exactly for failing detections. -/
def markOf (d : DetR) : Option ℤ :=
  if d.outcome.isSome then some d.detection_id else none

theorem replaceFirstNone_append (l₁ l₂ : List (Option ℤ)) (x : ℤ)
    (h : ∀ z ∈ l₁, z ≠ some x) :
    replaceFirstNone (l₁ ++ some x :: l₂) x = l₁ ++ none :: l₂ := by
  induction l₁ with
  | nil => simp [replaceFirstNone]
  | cons a t ih =>
    cases a with
    | none =>
      rw [List.cons_append, replaceFirstNone,
        ih (fun z hz => h z (List.mem_cons_of_mem _ hz)), List.cons_append]
    | some y =>
      have hy : y ≠ x := by
        intro he
        exact (h (some y) (List.mem_cons_self _ _)) (by rw [he])
      rw [List.cons_append, replaceFirstNone, if_neg hy,
        ih (fun z hz => h z (List.mem_cons_of_mem _ hz)), List.cons_append]

theorem markFold_nodup (post : List DetR) :
    ∀ (pre : List DetR),
      (((pre ++ post).map (fun d => d.detection_id)).Nodup) →
      post.foldl markStep
          (pre.map markOf ++ post.map (fun d => some d.detection_id)) =
        (pre ++ post).map markOf := by
  induction post with
  | nil =>
    intro pre _
    simp
  | cons d post ih =>
    intro pre hnd
    have hnd' : (((pre ++ [d]) ++ post).map (fun d => d.detection_id)).Nodup := by
      rw [List.append_assoc]
      exact hnd
    rw [List.foldl_cons]
    cases hout : d.outcome with
    | some v =>
      have hmark : markOf d = some d.detection_id := by simp [markOf, hout]
      have hstep : markStep
          (pre.map markOf ++ (d :: post).map (fun d => some d.detection_id)) d =
          pre.map markOf ++ (d :: post).map (fun d => some d.detection_id) := by
        rw [markStep, hout]
      rw [hstep]
      have hshape : pre.map markOf ++ (d :: post).map (fun d => some d.detection_id) =
          (pre ++ [d]).map markOf ++ post.map (fun d => some d.detection_id) := by
        rw [List.map_cons, List.map_append]
        simp [hmark]
      rw [hshape, ih (pre ++ [d]) hnd', List.append_assoc]
      rfl
    | none =>
      have hmark : markOf d = none := by simp [markOf, hout]
      have hnotin : ∀ z ∈ pre.map markOf, z ≠ some d.detection_id := by
        intro z hz
        rcases List.mem_map.mp hz with ⟨p, hp, rfl⟩
        have hne : p.detection_id ≠ d.detection_id := by
          have hnd2 := hnd
          rw [List.map_append, List.map_cons, List.nodup_middle, List.nodup_cons] at hnd2
          intro he
          apply hnd2.1
          apply List.mem_append_left
          rw [← he]
          exact List.mem_map_of_mem _ hp
        unfold markOf
        split
        · intro he
          exact hne (Option.some.inj he)
        · intro he
          cases he
      have hstep : markStep
          (pre.map markOf ++ (d :: post).map (fun d => some d.detection_id)) d =
          replaceFirstNone
            (pre.map markOf ++ (d :: post).map (fun d => some d.detection_id))
            d.detection_id := by
        rw [markStep, hout]
      rw [hstep, List.map_cons, replaceFirstNone_append _ _ _ hnotin]
      have hshape : pre.map markOf ++ none :: post.map (fun d => some d.detection_id) =
          (pre ++ [d]).map markOf ++ post.map (fun d => some d.detection_id) := by
        rw [List.map_append]
        simp [hmark]
      rw [hshape, ih (pre ++ [d]) hnd', List.append_assoc]
      rfl

theorem markFailures_nodup (dets : List DetR)
    (h : (dets.map (fun d => d.detection_id)).Nodup) :
    markFailures dets = dets.map markOf := by
  unfold markFailures
  have hres := markFold_nodup dets [] (by simpa using h)
  simpa using hres

theorem filterMap_id_map_markOf (dets : List DetR) :
    (dets.map markOf).filterMap id =
      (dets.filter (fun d => d.outcome.isSome)).map (fun d => d.detection_id) := by
  induction dets with
  | nil => rfl
  | cons d dets ih =>
    rw [List.map_cons, List.filterMap_cons, List.filter_cons]
    cases hout : d.outcome <;> simp [markOf, hout, ih]

/-- C10. Load-failure exclusion is keyed by detection-id value: a failure
replaces the first occurrence of the failed id in the identifier list.
Under the precondition that all detection ids are pairwise distinct, the
surviving identifier list is exactly the ids of the successful detections
in order (so embeddings and identifiers stay aligned); with duplicate ids
and a later duplicate failing, the wrong occurrence is removed — on the
concrete batch with ids `[7, 9, 7]` whose third detection fails, the
surviving identifier list is `[9, 7]` while the successful detections (and
the surviving embeddings, in order) carry ids `[7, 9]`: the output labels
are misassigned. -/
theorem C10_duplicate_id_misassignment :
    (∀ dets : List DetR, (dets.map (fun d => d.detection_id)).Nodup →
      survivingIds dets =
        (dets.filter (fun d => d.outcome.isSome)).map (fun d => d.detection_id)) ∧
    survivingIds [⟨7, some [1]⟩, ⟨9, some [2]⟩, ⟨7, none⟩] = [9, 7] ∧
    (([⟨7, some [1]⟩, ⟨9, some [2]⟩, ⟨7, none⟩] : List DetR).filter
      (fun d => d.outcome.isSome)).map (fun d => d.detection_id) = [7, 9] ∧
    combinedEmbs [⟨7, some [1]⟩, ⟨9, some [2]⟩, ⟨7, none⟩] = [[1], [2]] := by
  refine ⟨?_, by decide, by decide, ?_⟩
  · intro dets h
    unfold survivingIds
    rw [markFailures_nodup dets h, filterMap_id_map_markOf]
  · rw [combinedEmbs_eq]
    decide

/-- Witness for C10's distinct-ids guarantee at a concrete batch. -/
theorem C10_duplicate_id_misassignment_witness :
    survivingIds [⟨7, some [1]⟩, ⟨9, none⟩] =
      (([⟨7, some [1]⟩, ⟨9, none⟩] : List DetR).filter
        (fun d => d.outcome.isSome)).map (fun d => d.detection_id) :=
  C10_duplicate_id_misassignment.1 [⟨7, some [1]⟩, ⟨9, none⟩] (by decide)
